import Mathlib

/-!
Verification of the bookflux layout-reconstruction and text-fitting engine.

This file gives a shallow embedding, in Lean 4, of the pure core of the
`bookflux` repository (files `bookflux/text_utils.py`, `bookflux/layout_utils.py`,
`bookflux/pdf_utils.py`, `bookflux/output_utils.py`) and proves, or refutes,
the specification claims about it.

Modelling conventions:
* Python strings are modelled as `List Char` (`Str`).  String methods
  (`strip`, `split`, `splitlines`, `isdigit`, …) are re-implemented on
  `List Char` with ASCII character classes (`Char.isWhitespace`,
  `Char.isDigit`, …); Python's methods are Unicode-aware supersets, and
  `str.splitlines` additionally breaks at `'\r'` and a few other control
  characters — inputs are taken to use `'\n'` as the only line break,
  which is what the repository itself produces.
* Python floats are modelled as `ℚ`.  All the arithmetic appearing in the
  claims (`+`, `-`, `*`, `/`, `max`, `min`, floor division, comparisons) is
  exact on the values involved, so no floating-point rounding issue is
  being glossed over.
* Python's `sorted` is a stable sort; `List.insertionSort` is stable, so it
  is a faithful model of `sorted` (two stable sorts under the same total
  preorder agree).
* The glyph-width oracle `reportlab.pdfbase.pdfmetrics.stringWidth` is an
  external collaborator; it is modelled as an explicit function parameter
  `sw : Str → ℚ → ℚ` (text and font size to width), universally quantified
  in the theorems about wrapping and fitting.
-/

abbrev Str := List Char

/-! ## Python string primitives -/

/-- `s.strip(chars)`: remove the characters satisfying `p` from both ends. -/
def pyStripChars (p : Char → Bool) (s : Str) : Str :=
  ((s.dropWhile p).reverse.dropWhile p).reverse

/-- `s.strip()` (whitespace from both ends). -/
def pyStrip (s : Str) : Str := pyStripChars Char.isWhitespace s

/-- `s.lstrip()`. -/
def pyLstrip (s : Str) : Str := s.dropWhile Char.isWhitespace

/-- `s.rstrip()`. -/
def pyRstrip (s : Str) : Str := (s.reverse.dropWhile Char.isWhitespace).reverse

/-- The character set of Python's `strip(" -")`. -/
def isSpaceDash (c : Char) : Bool := c == ' ' || c == '-'

/-- `s.isdigit()`: non-empty and all digits. -/
def pyIsdigit (s : Str) : Bool := !s.isEmpty && s.all Char.isDigit

/-- Helper for `s.split()`: accumulate the current word (reversed). -/
def splitWsAux : Str → Str → List Str
  | [], acc => if acc.isEmpty then [] else [acc.reverse]
  | c :: rest, acc =>
    if c.isWhitespace then
      if acc.isEmpty then splitWsAux rest [] else acc.reverse :: splitWsAux rest []
    else splitWsAux rest (c :: acc)

/-- `s.split()` — split on whitespace runs, dropping empty pieces. -/
def pySplitWs (s : Str) : List Str := splitWsAux s []

/-- Helper for `s.split("\n")`. -/
def splitNlAux : Str → Str → List Str
  | [], acc => [acc.reverse]
  | c :: rest, acc =>
    if c == '\n' then acc.reverse :: splitNlAux rest [] else splitNlAux rest (c :: acc)

/-- `s.split("\n")`. -/
def splitNl (s : Str) : List Str := splitNlAux s []

/-- `"\n".join(lines)`. -/
def joinNl : List Str → Str
  | [] => []
  | [l] => l
  | l :: l2 :: rest => l ++ '\n' :: joinNl (l2 :: rest)

/-- `s.splitlines()` (with `'\n'` as the only line break): like
`split("\n")` but a trailing newline does not produce a final empty piece,
and the empty string has no lines. -/
def pySplitlines (s : Str) : List Str :=
  if s.isEmpty then []
  else if s.getLast? == some '\n' then (splitNl s).dropLast else splitNl s

/-- `s.strip("\n")`. -/
def pyStripNlStr (s : Str) : Str := pyStripChars (· == '\n') s

/-- `text.replace("\r\n", "\n")`. -/
def dropCr : Str → Str
  | [] => []
  | '\r' :: '\n' :: rest => '\n' :: dropCr rest
  | c :: rest => c :: dropCr rest

/-! ## `bookflux/text_utils.py` -/

/-- `looks_like_page_number` (text_utils.py): after stripping whitespace and
then spaces/dashes, a pure digit string of length ≤ 4. -/
def looksLikePageNumber (line : Str) : Bool :=
  let clean := pyStrip line
  if clean.isEmpty then false
  else
    let trimmed := pyStripChars isSpaceDash clean
    pyIsdigit trimmed && decide (trimmed.length ≤ 4)

/-- The sentence-final punctuation characters `".!?"`. -/
def sentencePunct (c : Char) : Bool := c == '.' || c == '!' || c == '?'

/-- The closing characters `"\"')]"`. -/
def closingPunct (c : Char) : Bool := c == '"' || c == '\'' || c == ')' || c == ']'

/-- `_ends_sentence` (text_utils.py). -/
def endsSentence (line : Str) : Bool :=
  let clean := pyStrip line
  match clean.getLast? with
  | none => false
  | some c =>
    if sentencePunct c then true
    else
      decide (2 ≤ clean.length) && closingPunct c &&
        (match clean.dropLast.getLast? with
         | some d => sentencePunct d
         | none => false)

/-- `_starts_with_lowercase` (text_utils.py): the first alphabetic character
is lowercase (false when there is none). -/
def startsWithLowercase (line : Str) : Bool :=
  match line.find? Char.isAlpha with
  | some c => c.isLower
  | none => false

/-- `_looks_like_heading` (text_utils.py). -/
def looksLikeHeading (line : Str) : Bool :=
  let letters := line.filter Char.isAlpha
  if decide (letters.length < 4) then false
  else if !letters.all Char.isUpper then false
  else decide ((pySplitWs line).length ≤ 8)

/-- `should_merge_lines` (text_utils.py). -/
def shouldMergeLines (lastLine nextLine : Str) : Bool :=
  if looksLikePageNumber lastLine || looksLikePageNumber nextLine then false
  else if looksLikeHeading lastLine || looksLikeHeading nextLine then false
  else if lastLine.getLast? == some '-' then true
  else if startsWithLowercase nextLine then true
  else !endsSentence lastLine

/-- `merge_lines` (text_utils.py). -/
def mergeLines (lastLine nextLine : Str) : Str :=
  if lastLine.getLast? == some '-' then lastLine.dropLast ++ pyLstrip nextLine
  else lastLine ++ ' ' :: nextLine

/-- `split_first_token` (text_utils.py): first whitespace-delimited token of
the line and the remainder (Python `clean.split(None, 1)`). -/
def splitFirstToken (line : Str) : Str × Str :=
  let clean := pyLstrip line
  if clean.isEmpty then ([], [])
  else
    (clean.takeWhile (fun c => !c.isWhitespace),
     (clean.dropWhile (fun c => !c.isWhitespace)).dropWhile Char.isWhitespace)

/-- `first_non_empty_index` (text_utils.py). -/
def firstNonEmptyIdx : List Str → Option Nat
  | [] => none
  | l :: rest =>
    if !(pyStrip l).isEmpty then some 0 else (firstNonEmptyIdx rest).map (· + 1)

/-- `last_non_empty_index` (text_utils.py): the index of the last line whose
`strip()` is non-empty (scanning from the end). -/
def lastNonEmptyIdx (lines : List Str) : Option Nat :=
  (firstNonEmptyIdx lines.reverse).map (fun i => lines.length - 1 - i)

/-! ## Claim C3: the five ordered merge rules, formalised from the claim text -/

/-- Claim rule 1: after stripping surrounding whitespace and spaces/dashes,
a pure digit string of length ≤ 4. -/
def claimPageNumber (line : Str) : Bool :=
  let t := pyStripChars isSpaceDash (pyStrip line)
  pyIsdigit t && decide (t.length ≤ 4)

/-- Claim rule 2: ≥ 4 alphabetic characters, all alphabetic characters
uppercase, ≤ 8 whitespace-delimited words. -/
def claimHeading (line : Str) : Bool :=
  let letters := line.filter Char.isAlpha
  decide (4 ≤ letters.length) && letters.all Char.isUpper &&
    decide ((pySplitWs line).length ≤ 8)

/-- Claim rule 5's ending test: the (stripped) line ends with `.`, `!`, `?`,
or with one of `"')]` preceded by such punctuation. -/
def claimEndsSentencePunct (line : Str) : Bool :=
  let clean := pyStrip line
  (match clean.getLast? with
   | some c => sentencePunct c
   | none => false)
  || ((match clean.getLast? with
       | some c => closingPunct c
       | none => false)
      && (match clean.dropLast.getLast? with
          | some d => sentencePunct d
          | none => false))

/-- The claim's five ordered rules, as one flat decision function. -/
def claimShouldMerge (lastLine nextLine : Str) : Bool :=
  if claimPageNumber lastLine || claimPageNumber nextLine then false
  else if claimHeading lastLine || claimHeading nextLine then false
  else if lastLine.getLast? == some '-' then true
  else if startsWithLowercase nextLine then true
  else !claimEndsSentencePunct lastLine

lemma looksLikePageNumber_eq_claim (l : Str) :
    looksLikePageNumber l = claimPageNumber l := by
  unfold looksLikePageNumber claimPageNumber
  by_cases h : (pyStrip l).isEmpty
  · rw [List.isEmpty_iff] at h
    simp [h, pyStripChars, pyIsdigit]
  · simp [h]

lemma looksLikeHeading_eq_claim (l : Str) :
    looksLikeHeading l = claimHeading l := by
  unfold looksLikeHeading claimHeading
  rcases Nat.lt_or_ge (l.filter Char.isAlpha).length 4 with h | h
  · simp [h, Nat.not_le.mpr h]
  · simp only [decide_eq_true h, Nat.not_lt.mpr h, decide_eq_false (Nat.not_lt.mpr h)]
    cases hu : (l.filter Char.isAlpha).all Char.isUpper <;> simp [hu]

lemma endsSentence_eq_claim (l : Str) :
    endsSentence l = claimEndsSentencePunct l := by
  unfold endsSentence claimEndsSentencePunct
  cases hc : (pyStrip l).getLast? with
  | none => simp [hc]
  | some c =>
    cases hd : (pyStrip l).dropLast.getLast? with
    | none =>
      by_cases hp : sentencePunct c <;> simp [hc, hd, hp]
    | some d =>
      have hne : (pyStrip l).dropLast ≠ [] := by
        intro h; rw [h] at hd; simp at hd
      have hlen : 2 ≤ (pyStrip l).length := by
        have h1 : 0 < (pyStrip l).dropLast.length := List.length_pos.mpr hne
        have h2 : (pyStrip l).dropLast.length = (pyStrip l).length - 1 :=
          List.length_dropLast _
        omega
      by_cases hp : sentencePunct c <;> simp [hc, hd, hp, hlen]

/-- **C3** — `should_merge_lines` decides exactly by the spec's five ordered
rules: page-number guard, heading guard, trailing hyphen, lowercase
continuation, and otherwise the sentence-final-punctuation test. -/
theorem shouldMergeLines_decides_by_spec_rules :
    ∀ lastLine nextLine : Str,
      shouldMergeLines lastLine nextLine = claimShouldMerge lastLine nextLine := by
  intro l n
  unfold shouldMergeLines claimShouldMerge
  rw [looksLikePageNumber_eq_claim, looksLikePageNumber_eq_claim,
    looksLikeHeading_eq_claim, looksLikeHeading_eq_claim, endsSentence_eq_claim]

/-! ## Data model (`layout_utils.py` dataclasses) -/

/-- A positioned word as produced by the page-extraction collaborator
(`page.extract_words`): the dict keys `text, x0, x1, top, bottom, size`. -/
structure Word where
  text : Str
  x0 : ℚ
  x1 : ℚ
  top : ℚ
  bottom : ℚ
  size : ℚ
deriving DecidableEq, Repr

/-- `TextLine` (layout_utils.py). -/
structure TextLine where
  text : Str
  x0 : ℚ
  x1 : ℚ
  top : ℚ
  bottom : ℚ
  size : ℚ
deriving DecidableEq, Repr

/-- `TextBlock` (layout_utils.py). -/
structure TextBlock where
  text : Str
  x0 : ℚ
  x1 : ℚ
  top : ℚ
  bottom : ℚ
  font_size : ℚ
deriving DecidableEq, Repr

/-- `TypographyProfile` (layout_utils.py). -/
structure TypographyProfile where
  body_font_size : ℚ
  heading_targets : List ℚ
deriving DecidableEq, Repr

/-! ## Python `min` / `max` / `statistics.median` on rationals -/

/-- Python `min(iterable)` on a non-empty list (0 as junk value on `[]`,
never used: every call site guards non-emptiness). -/
def minQ : List ℚ → ℚ
  | [] => 0
  | x :: xs => xs.foldl min x

/-- Python `max(iterable)` on a non-empty list. -/
def maxQ : List ℚ → ℚ
  | [] => 0
  | x :: xs => xs.foldl max x

lemma foldl_min_le_init (xs : List ℚ) (a : ℚ) : xs.foldl min a ≤ a := by
  induction xs generalizing a with
  | nil => simp
  | cons x xs ih => exact le_trans (ih (min a x)) (min_le_left a x)

lemma foldl_min_le_mem (xs : List ℚ) (a : ℚ) : ∀ x ∈ xs, xs.foldl min a ≤ x := by
  induction xs generalizing a with
  | nil => simp
  | cons y ys ih =>
    intro x hx
    rcases List.mem_cons.mp hx with rfl | hx
    · exact le_trans (foldl_min_le_init ys (min a x)) (min_le_right a x)
    · exact ih (min a y) x hx

lemma foldl_min_mem (xs : List ℚ) (a : ℚ) : xs.foldl min a = a ∨ xs.foldl min a ∈ xs := by
  induction xs generalizing a with
  | nil => simp
  | cons y ys ih =>
    rw [List.foldl_cons]
    rcases ih (min a y) with h | h
    · rcases min_choice a y with hm | hm
      · exact Or.inl (by rw [h, hm])
      · exact Or.inr (by rw [h, hm]; exact List.mem_cons_self y ys)
    · exact Or.inr (List.mem_cons_of_mem _ h)

lemma minQ_mem {l : List ℚ} (h : l ≠ []) : minQ l ∈ l := by
  match l with
  | x :: xs =>
    show xs.foldl min x ∈ x :: xs
    rcases foldl_min_mem xs x with h' | h'
    · rw [h']; exact List.mem_cons_self x xs
    · exact List.mem_cons_of_mem _ h'

lemma minQ_le {l : List ℚ} : ∀ x ∈ l, minQ l ≤ x := by
  match l with
  | [] => simp
  | y :: ys =>
    intro x hx
    rcases List.mem_cons.mp hx with rfl | hx
    · exact foldl_min_le_init ys x
    · exact foldl_min_le_mem ys y x hx

lemma minQ_perm {l l' : List ℚ} (h : List.Perm l l') : minQ l = minQ l' := by
  rcases eq_or_ne l [] with rfl | hne
  · rw [h.symm.eq_nil]
  · have hne' : l' ≠ [] := fun he => hne (by subst he; exact h.eq_nil)
    exact le_antisymm
      (minQ_le _ (h.mem_iff.mpr (minQ_mem hne')))
      (minQ_le _ (h.mem_iff.mp (minQ_mem hne)))

lemma foldl_max_le_init (xs : List ℚ) (a : ℚ) : a ≤ xs.foldl max a := by
  induction xs generalizing a with
  | nil => simp
  | cons x xs ih => exact le_trans (le_max_left a x) (ih (max a x))

lemma foldl_max_le_mem (xs : List ℚ) (a : ℚ) : ∀ x ∈ xs, x ≤ xs.foldl max a := by
  induction xs generalizing a with
  | nil => simp
  | cons y ys ih =>
    intro x hx
    rcases List.mem_cons.mp hx with rfl | hx
    · exact le_trans (le_max_right a x) (foldl_max_le_init ys (max a x))
    · exact ih (max a y) x hx

lemma foldl_max_mem (xs : List ℚ) (a : ℚ) : xs.foldl max a = a ∨ xs.foldl max a ∈ xs := by
  induction xs generalizing a with
  | nil => simp
  | cons y ys ih =>
    rw [List.foldl_cons]
    rcases ih (max a y) with h | h
    · rcases max_choice a y with hm | hm
      · exact Or.inl (by rw [h, hm])
      · exact Or.inr (by rw [h, hm]; exact List.mem_cons_self y ys)
    · exact Or.inr (List.mem_cons_of_mem _ h)

lemma maxQ_mem {l : List ℚ} (h : l ≠ []) : maxQ l ∈ l := by
  match l with
  | x :: xs =>
    show xs.foldl max x ∈ x :: xs
    rcases foldl_max_mem xs x with h' | h'
    · rw [h']; exact List.mem_cons_self x xs
    · exact List.mem_cons_of_mem _ h'

lemma le_maxQ {l : List ℚ} : ∀ x ∈ l, x ≤ maxQ l := by
  match l with
  | [] => simp
  | y :: ys =>
    intro x hx
    rcases List.mem_cons.mp hx with rfl | hx
    · exact foldl_max_le_init ys x
    · exact foldl_max_le_mem ys y x hx

lemma maxQ_perm {l l' : List ℚ} (h : List.Perm l l') : maxQ l = maxQ l' := by
  rcases eq_or_ne l [] with rfl | hne
  · rw [h.symm.eq_nil]
  · have hne' : l' ≠ [] := fun he => hne (by subst he; exact h.eq_nil)
    exact le_antisymm
      (le_maxQ _ (h.mem_iff.mp (maxQ_mem hne)))
      (le_maxQ _ (h.mem_iff.mpr (maxQ_mem hne')))

/-- `statistics.median` on a non-empty list: middle element of the sorted
list, or the mean of the two middle elements. -/
def medianQ (l : List ℚ) : ℚ :=
  let s := List.insertionSort (· ≤ ·) l
  if l.length % 2 = 1 then s.getD (l.length / 2) 0
  else (s.getD (l.length / 2 - 1) 0 + s.getD (l.length / 2) 0) / 2

/-- `_median` (layout_utils.py): drop falsy (zero) values, defaulting when
nothing is left. -/
def pyMedian (values : List ℚ) (default : ℚ) : ℚ :=
  let vl := values.filter (fun v => v != 0)
  if vl.isEmpty then default else medianQ vl

/-! ## Sort orders (Python `sorted` key functions) -/

/-- Lexicographic order by a primary and a secondary rational key, as used
by Python's `sorted(..., key=lambda v: (f v, g v))`. -/
def keyLe {α : Type} (f g : α → ℚ) (a b : α) : Prop :=
  f a < f b ∨ (f a = f b ∧ g a ≤ g b)

instance {α : Type} (f g : α → ℚ) : DecidableRel (keyLe f g) := fun a b => by
  unfold keyLe; infer_instance

instance {α : Type} (f g : α → ℚ) : IsTotal α (keyLe f g) := ⟨by
  intro a b
  rcases lt_trichotomy (f a) (f b) with h | h | h
  · exact Or.inl (Or.inl h)
  · rcases le_total (g a) (g b) with h' | h'
    · exact Or.inl (Or.inr ⟨h, h'⟩)
    · exact Or.inr (Or.inr ⟨h.symm, h'⟩)
  · exact Or.inr (Or.inl h)⟩

instance {α : Type} (f g : α → ℚ) : IsTrans α (keyLe f g) := ⟨by
  intro a b c hab hbc
  rcases hab with h1 | ⟨h1, h1'⟩ <;> rcases hbc with h2 | ⟨h2, h2'⟩
  · exact Or.inl (h1.trans h2)
  · exact Or.inl (h2 ▸ h1)
  · exact Or.inl (h1 ▸ h2)
  · exact Or.inr ⟨h1.trans h2, h1'.trans h2'⟩⟩

/-- Order by a single rational key (`sorted(..., key=lambda v: f v)`). -/
def projLe {α : Type} (f : α → ℚ) (a b : α) : Prop := f a ≤ f b

instance {α : Type} (f : α → ℚ) : DecidableRel (projLe f) := fun a b => by
  unfold projLe; infer_instance

instance {α : Type} (f : α → ℚ) : IsTotal α (projLe f) :=
  ⟨fun a b => le_total (f a) (f b)⟩

instance {α : Type} (f : α → ℚ) : IsTrans α (projLe f) :=
  ⟨fun _ _ _ hab hbc => le_trans hab hbc⟩

/-! ## `_build_line` / `_words_to_lines` (layout_utils.py) -/

/-- `_build_line` (layout_utils.py): sort the words by `x0`, join the
non-empty texts with spaces, take the union bounding box and the median
size (default 11.0). -/
def buildLine (ws : List Word) : TextLine :=
  let s := List.insertionSort (projLe Word.x0) ws
  { text := List.intercalate [' '] ((s.filter (fun w => !w.text.isEmpty)).map Word.text)
    x0 := minQ (s.map Word.x0)
    x1 := maxQ (s.map Word.x1)
    top := minQ (s.map Word.top)
    bottom := maxQ (s.map Word.bottom)
    size := pyMedian (s.map Word.size) 11 }

/-- The grouping loop of `_words_to_lines`: `cur` is the current line's
words (in order), `ctop` the running top.  A word joins the current line
when `|word.top - ctop| ≤ tol`; the running top is the minimum top seen. -/
def clusterWords (tol : ℚ) : List Word → List Word → ℚ → List (List Word)
  | [], cur, _ => [cur]
  | w :: rest, cur, ctop =>
    if |w.top - ctop| ≤ tol then clusterWords tol rest (cur ++ [w]) (min ctop w.top)
    else cur :: clusterWords tol rest [w] w.top

/-- `_words_to_lines` (layout_utils.py). -/
def wordsToLines (words : List Word) (yTol : ℚ) : List TextLine :=
  match List.insertionSort (keyLe Word.top Word.x0) words with
  | [] => []
  | w :: rest => (clusterWords yTol rest [w] w.top).map buildLine

/-! ## `_split_columns` (layout_utils.py) -/

/-- Python `round(x)` (banker's rounding, half to even). -/
def roundHalfEven (x : ℚ) : ℤ :=
  if x - ⌊x⌋ < 1 / 2 then ⌊x⌋
  else if 1 / 2 < x - ⌊x⌋ then ⌊x⌋ + 1
  else if ⌊x⌋ % 2 = 0 then ⌊x⌋ else ⌊x⌋ + 1

/-- Python `round(q, 1)`. -/
def pyRound1 (q : ℚ) : ℚ := (roundHalfEven (q * 10) : ℚ) / 10

/-- `sorted({round(line.x0, 1) for line in lines})`. -/
def distinctX0s (lines : List TextLine) : List ℚ :=
  List.insertionSort (· ≤ ·) ((lines.map (fun l => pyRound1 l.x0)).dedup)

/-- The gaps between adjacent sorted distinct x0 values. -/
def x0Gaps (lines : List TextLine) : List ℚ :=
  ((distinctX0s lines).zip (distinctX0s lines).tail).map (fun p => p.2 - p.1)

/-- `max(gaps)`. -/
def maxX0Gap (lines : List TextLine) : ℚ := maxQ (x0Gaps lines)

/-- The midpoint of the (first) largest gap: the column split abscissa. -/
def colSplitX (lines : List TextLine) : ℚ :=
  let x0s := distinctX0s lines
  let si := (x0Gaps lines).indexOf (maxX0Gap lines)
  (x0s.getD si 0 + x0s.getD (si + 1) 0) / 2

/-- `_split_columns` (layout_utils.py). -/
def splitColumns (lines : List TextLine) (pageWidth : ℚ) : List (List TextLine) :=
  if lines.length < 6 then [lines]
  else if (distinctX0s lines).length < 2 then [lines]
  else if maxX0Gap lines < pageWidth * (1 / 5) then [lines]
  else
    let sx := colSplitX lines
    let left := lines.filter (fun l => decide (l.x0 < sx))
    let right := lines.filter (fun l => decide (sx ≤ l.x0))
    if left.length < 3 ∨ right.length < 3 then [lines]
    else [left, right]

/-! ## `_lines_to_blocks` (layout_utils.py) -/

/-- Build one `TextBlock` from its lines (join non-empty texts with
newlines, union bounding box, median line size). -/
def buildBlock (bl : List TextLine) : TextBlock :=
  { text := joinNl ((bl.filter (fun l => !l.text.isEmpty)).map TextLine.text)
    x0 := minQ (bl.map TextLine.x0)
    x1 := maxQ (bl.map TextLine.x1)
    top := minQ (bl.map TextLine.top)
    bottom := maxQ (bl.map TextLine.bottom)
    font_size := pyMedian (bl.map TextLine.size) 11 }

/-- The grouping loop of `_lines_to_blocks`: a line starts a new block when
the gap to the previous line's bottom exceeds the threshold. -/
def blockGroups (thr : ℚ) : List TextLine → List TextLine → TextLine → List (List TextLine)
  | [], cur, _ => [cur]
  | l :: rest, cur, prev =>
    if thr < l.top - prev.bottom then cur :: blockGroups thr rest [l] l
    else blockGroups thr rest (cur ++ [l]) l

/-- `_lines_to_blocks` (layout_utils.py). -/
def linesToBlocks (lines : List TextLine) : List TextBlock :=
  match List.insertionSort (keyLe TextLine.top TextLine.x0) lines with
  | [] => []
  | l :: rest =>
    let heights := (l :: rest).map (fun t => max (t.bottom - t.top) 1)
    let thr := pyMedian heights 12 * (3 / 2)
    (blockGroups thr rest [l] l).map buildBlock

/-- **C9** — the per-page clustering/segmentation pipeline is total and
treats emptiness as zero output: the empty word list yields the empty line
list, column splitting on that yields groups containing no lines, and
block segmentation of an empty group yields zero blocks (all functions are
total, so no step can raise). -/
theorem empty_page_pipeline_yields_zero_blocks :
    ∀ pw : ℚ,
      wordsToLines [] 2 = []
      ∧ splitColumns (wordsToLines [] 2) pw = [[]]
      ∧ linesToBlocks [] = []
      ∧ ((splitColumns (wordsToLines [] 2) pw).map linesToBlocks).flatten = [] := by
  intro pw
  exact ⟨rfl, rfl, rfl, rfl⟩

/-! ## Typography profile (layout_utils.py) -/

/-- `HEADING_SIZE_RATIO` in the source (1.2). -/
def HEADING_SIZE_FACTOR : ℚ := 6 / 5

/-- `HEADING_TOLERANCE` in the source (0.5). -/
def HEADING_TOLERANCE : ℚ := 1 / 2

/-- The single-linkage clustering loop of `_cluster_sizes`: consecutive
sorted values within tolerance of the last value join the cluster. -/
def clusterSizesAux (tol : ℚ) : List ℚ → List ℚ → ℚ → List (List ℚ)
  | [], cur, _ => [cur]
  | s :: rest, cur, lastv =>
    if s - lastv ≤ tol then clusterSizesAux tol rest (cur ++ [s]) s
    else cur :: clusterSizesAux tol rest [s] s

/-- `_cluster_sizes` (layout_utils.py). -/
def clusterSizes (sizes : List ℚ) (tol : ℚ) : List (List ℚ) :=
  match List.insertionSort (· ≤ ·) sizes with
  | [] => []
  | s :: rest => clusterSizesAux tol rest [s] s

/-- `_infer_body_font_size` (layout_utils.py). -/
def inferBodyFontSize (sizes : List ℚ) (default : ℚ) : ℚ :=
  if sizes.isEmpty then default
  else
    let sorted := List.insertionSort (· ≤ ·) sizes
    let minSize := sorted.getD 0 0
    let maxSize := (sorted.getLast?).getD 0
    if 0 < minSize ∧ minSize * HEADING_SIZE_FACTOR ≤ maxSize then minSize
    else pyMedian sorted default

/-- `extract_typography_profile` (layout_utils.py); `headingRatio`
defaults to `HEADING_SIZE_FACTOR` at the call sites. -/
def extractTypographyProfile (pages : List (List TextBlock))
    (headingRatio : ℚ) : TypographyProfile :=
  let sizes := (pages.flatten.map TextBlock.font_size).filter (fun v => v != 0)
  let bodySize := inferBodyFontSize sizes 11
  let thr := bodySize * headingRatio
  let headingSizes := (pages.flatten.map TextBlock.font_size).filter (fun v => decide (thr ≤ v))
  let clusters := clusterSizes headingSizes HEADING_TOLERANCE
  let targets := clusters.map (fun c => max (pyMedian c (c.getD 0 0)) thr)
  { body_font_size := bodySize, heading_targets := targets }

/-- **C2** — with the default heading ratio 1.2, every heading target of
the computed typography profile is at least `body_font_size * 1.2`
(each cluster target is the maximum of its median and the threshold). -/
theorem heading_targets_at_least_heading_threshold :
    ∀ pages : List (List TextBlock),
      ((extractTypographyProfile pages HEADING_SIZE_FACTOR).heading_targets).all
        (fun t =>
          decide ((extractTypographyProfile pages HEADING_SIZE_FACTOR).body_font_size
            * HEADING_SIZE_FACTOR ≤ t)) = true := by
  intro pages
  rw [List.all_eq_true]
  intro t ht
  simp only [extractTypographyProfile, List.mem_map] at ht
  obtain ⟨c, _, rfl⟩ := ht
  simp only [decide_eq_true_eq]
  exact le_max_right _ _

/-- **C6** — `_split_columns` returns the single original group when there
are fewer than 6 lines, fewer than 2 distinct rounded x0 values, or a
largest adjacent-x0 gap below `0.2 * page_width`; and whenever it returns
two groups, they partition the input lines by x0 relative to the gap
midpoint and each group has at least 3 lines. -/
theorem splitColumns_guards_and_partition :
    ∀ (lines : List TextLine) (pw : ℚ),
      (lines.length < 6 → splitColumns lines pw = [lines])
      ∧ ((lines.map (fun l => pyRound1 l.x0)).dedup.length < 2 →
          splitColumns lines pw = [lines])
      ∧ (maxX0Gap lines < pw * (1 / 5) → splitColumns lines pw = [lines])
      ∧ (∀ L R, splitColumns lines pw = [L, R] →
          L = lines.filter (fun l => decide (l.x0 < colSplitX lines))
          ∧ R = lines.filter (fun l => decide (colSplitX lines ≤ l.x0))
          ∧ 3 ≤ L.length ∧ 3 ≤ R.length
          ∧ L.length + R.length = lines.length) := by
  intro lines pw
  have hdistinct : (distinctX0s lines).length
      = (lines.map (fun l => pyRound1 l.x0)).dedup.length := by
    simp [distinctX0s, List.length_insertionSort]
  refine ⟨?_, ?_, ?_, ?_⟩
  · intro h
    unfold splitColumns
    rw [if_pos h]
  · intro h
    unfold splitColumns
    split_ifs with h1 h2 h3 <;> try rfl
    all_goals omega
  · intro h
    unfold splitColumns
    split_ifs with h1 h2 <;> rfl
  · intro L R hres
    unfold splitColumns at hres
    split_ifs at hres with h1 h2 h3
    · simp at hres
    · simp at hres
    · simp at hres
    · simp only [] at hres
      split_ifs at hres with h4
      · simp at hres
      push_neg at h4
      simp only [List.cons.injEq, and_true] at hres
      obtain ⟨hL, hR⟩ := hres
      subst hL
      subst hR
      refine ⟨rfl, rfl, h4.1, h4.2, ?_⟩
      have hcongr : lines.filter (fun l => !(decide (l.x0 < colSplitX lines)))
          = lines.filter (fun l => decide (colSplitX lines ≤ l.x0)) := by
        apply List.filter_congr
        intro a _
        by_cases hx : a.x0 < colSplitX lines
        · simp [hx, not_le.mpr hx]
        · simp [hx, not_lt.mp hx]
      rw [← hcongr]
      exact (List.length_eq_length_filter_add _).symm

/-- A concrete two-column page (6 lines, x0 gap 100 on a width-100 page). -/
def c6Lines : List TextLine :=
  [⟨"a".data, 0, 10, 0, 1, 11⟩, ⟨"b".data, 0, 10, 2, 3, 11⟩,
   ⟨"c".data, 0, 10, 4, 5, 11⟩, ⟨"d".data, 100, 110, 0, 1, 11⟩,
   ⟨"e".data, 100, 110, 2, 3, 11⟩, ⟨"f".data, 100, 110, 4, 5, 11⟩]

/-- Witness for C6 at concrete inputs: the small-input guard fires on an
empty line list, and on `c6Lines` the split branch returns two groups of
three lines each. -/
theorem splitColumns_guards_and_partition_witness :
    splitColumns [] 50 = [[]]
    ∧ 3 ≤ (c6Lines.filter (fun l => decide (l.x0 < colSplitX c6Lines))).length
    ∧ 3 ≤ (c6Lines.filter (fun l => decide (colSplitX c6Lines ≤ l.x0))).length := by
  refine ⟨(splitColumns_guards_and_partition [] 50).1 (by decide), ?_, ?_⟩
  · exact ((splitColumns_guards_and_partition c6Lines 100).2.2.2
      (c6Lines.filter (fun l => decide (l.x0 < colSplitX c6Lines)))
      (c6Lines.filter (fun l => decide (colSplitX c6Lines ≤ l.x0)))
      (by with_unfolding_all rfl)).2.2.1
  · exact ((splitColumns_guards_and_partition c6Lines 100).2.2.2
      (c6Lines.filter (fun l => decide (l.x0 < colSplitX c6Lines)))
      (c6Lines.filter (fun l => decide (colSplitX c6Lines ≤ l.x0)))
      (by with_unfolding_all rfl)).2.2.2.1

/-! ## Text wrapping and fitting (layout_utils.py)

The glyph-width oracle `stringWidth(text, font_name, font_size)` is the
external parameter `sw : Str → ℚ → ℚ`; a single-size width function
`Str → ℚ` is used where the Python code fixes the font size. -/

/-- `LINE_HEIGHT_MIN` in the source (1.05). -/
def LINE_HEIGHT_MIN : ℚ := 21 / 20

/-- The character loop of `_split_word`: `current` is the piece being
grown; a character that no longer fits closes the piece. -/
def splitWordAux (sw1 : Str → ℚ) (maxW : ℚ) : Str → Str → List Str
  | [], current => if current.isEmpty then [] else [current]
  | c :: rest, current =>
    if sw1 (current ++ [c]) ≤ maxW then splitWordAux sw1 maxW rest (current ++ [c])
    else if current.isEmpty then splitWordAux sw1 maxW rest [c]
    else current :: splitWordAux sw1 maxW rest [c]

/-- `_split_word` (layout_utils.py): hard character-by-character split of a
word that is wider than the box. -/
def splitWord (sw1 : Str → ℚ) (word : Str) (maxW : ℚ) : List Str :=
  if sw1 word ≤ maxW then [word] else splitWordAux sw1 maxW word []

/-- One step of the `_wrap_paragraph` loop over word pieces: try to extend
the current line with the next piece, else emit the current line. -/
def wrapStep (sw1 : Str → ℚ) (maxW : ℚ) (st : List Str × Str) (piece : Str) :
    List Str × Str :=
  let candidate := if st.2.isEmpty then piece else pyStrip (st.2 ++ ' ' :: piece)
  if sw1 candidate ≤ maxW then (st.1, candidate)
  else if st.2.isEmpty then (st.1, piece)
  else (st.1 ++ [st.2], piece)

/-- `_wrap_paragraph` (layout_utils.py). -/
def wrapParagraph (sw1 : Str → ℚ) (maxW : ℚ) (text : Str) : List Str :=
  let words := pySplitWs text
  if words.isEmpty then [[]]
  else
    let pieces := (words.map (fun w => splitWord sw1 w maxW)).flatten
    let st := pieces.foldl (wrapStep sw1 maxW) ([], [])
    if st.2.isEmpty then st.1 else st.1 ++ [st.2]

/-- `_wrap_text` (layout_utils.py): wrap paragraph by paragraph, keeping
blank source lines as blank output lines. -/
def wrapText (sw1 : Str → ℚ) (maxW : ℚ) (text : Str) : List Str :=
  ((pySplitlines text).map
    (fun para =>
      if (pyStrip para).isEmpty then [[]] else wrapParagraph sw1 maxW para)).flatten

/-- The result tuple of `_fit_text_to_box`. -/
structure FitResult where
  fontSize : ℚ
  lines : List Str
  lineHeight : ℚ
  truncated : Bool
  scaledDown : Bool
  remaining : List Str
deriving DecidableEq, Repr

/-- The two-ratio test inside the `_fit_text_to_box` loop: try the nice
ratio, then the tight minimum. -/
def fitTryRatios (count : ℕ) (fontSize maxH lhr : ℚ) : Option ℚ :=
  if (count : ℚ) * (fontSize * lhr) ≤ maxH then some (fontSize * lhr)
  else if (count : ℚ) * (fontSize * LINE_HEIGHT_MIN) ≤ maxH then
    some (fontSize * LINE_HEIGHT_MIN)
  else none

/-- The `while font_size >= min_size` loop of `_fit_text_to_box`,
decrementing by 0.5.  `fuel` bounds the number of iterations; the call
site passes `⌊2*(start - min_size)⌋ + 2`, which exceeds the number of
sizes `≥ min_size` in the half-step sequence, so the `fuel = 0` base case
is never reached and the recursion is exactly the Python loop. -/
def fitLoop (sw : Str → ℚ → ℚ) (text : Str) (maxW maxH baseSize minSize lhr : ℚ) :
    ℕ → ℚ → Option FitResult
  | 0, _ => none
  | fuel + 1, fontSize =>
    if fontSize < minSize then none
    else
      let lines := wrapText (fun s => sw s fontSize) maxW text
      match fitTryRatios lines.length fontSize maxH lhr with
      | some lh =>
        some ⟨fontSize, lines, lh, false, decide (fontSize < baseSize), []⟩
      | none => fitLoop sw text maxW maxH baseSize minSize lhr fuel (fontSize - 1 / 2)

/-- `_fit_text_to_box` (layout_utils.py). -/
def fitTextToBox (sw : Str → ℚ → ℚ) (text : Str)
    (maxW maxH baseSize minSize lhr : ℚ) : FitResult :=
  let start := max baseSize minSize
  let fuel := (⌊2 * (start - minSize)⌋ + 2).toNat
  match fitLoop sw text maxW maxH baseSize minSize lhr fuel start with
  | some r => r
  | none =>
    let lines := wrapText (fun s => sw s minSize) maxW text
    let lineHeight := minSize * LINE_HEIGHT_MIN
    let maxLines := max ⌊maxH / lineHeight⌋ 1
    if decide (maxLines < (lines.length : ℤ)) then
      ⟨minSize, lines.take maxLines.toNat, lineHeight, true,
        decide (minSize < baseSize), lines.drop maxLines.toNat⟩
    else ⟨minSize, lines, lineHeight, false, decide (minSize < baseSize), []⟩

lemma splitWordAux_flatten (sw1 : Str → ℚ) (maxW : ℚ) :
    ∀ (rest current : Str), (splitWordAux sw1 maxW rest current).flatten = current ++ rest := by
  intro rest
  induction rest with
  | nil =>
    intro current
    by_cases h : current.isEmpty
    · rw [List.isEmpty_iff] at h
      simp [splitWordAux, h]
    · simp [splitWordAux, h]
  | cons c rs ih =>
    intro current
    unfold splitWordAux
    by_cases h1 : sw1 (current ++ [c]) ≤ maxW
    · simp [h1, ih (current ++ [c])]
    · by_cases h2 : current.isEmpty
      · rw [List.isEmpty_iff] at h2
        simp [h1, h2, ih [c]]
      · simp [h1, h2, ih [c]]

/-- **C10** — hard word splitting never loses or duplicates characters:
for every width function, positive maximum width and word, the
concatenation of the pieces returned by `_split_word` equals the original
word, so wrapping preserves every character of every word. -/
theorem splitWord_preserves_characters :
    ∀ (sw1 : Str → ℚ) (maxW : ℚ) (word : Str), 0 < maxW →
      (splitWord sw1 word maxW).flatten = word := by
  intro sw1 maxW word _
  unfold splitWord
  by_cases h : sw1 word ≤ maxW
  · simp [h]
  · simp [h, splitWordAux_flatten]

/-- Witness for C10 at a concrete input: a two-character word split under a
width of 1 (narrower than a single character) is reassembled intact. -/
theorem splitWord_preserves_characters_witness :
    (0 : ℚ) < 1
    ∧ (splitWord (fun s => (s.length : ℚ)) ['a', 'b'] 1).flatten = ['a', 'b'] :=
  ⟨by norm_num,
   splitWord_preserves_characters (fun s => (s.length : ℚ)) 1 ['a', 'b'] (by norm_num)⟩

/-- **C1** (counterexample) — the claim fails as stated: with constant
character width `sw s q = q * |s|`, text `"x"`, box `100 × 5`, base and
minimum size 9, ratio 1.4, even a single minimum-size line does not fit
(`line_height = 9.45 > 5`), yet the fallback sets
`max_lines = max(⌊5 / 9.45⌋, 1) = 1` and reports `truncated = false`
while `1 * 9.45 > 5`. -/
theorem fitTextToBox_untruncated_can_exceed_box :
    (fitTextToBox (fun s q => q * s.length) ['x'] 100 5 9 9 (7 / 5)).truncated = false
    ∧ ¬ (((fitTextToBox (fun s q => q * s.length) ['x'] 100 5 9 9 (7 / 5)).lines.length : ℚ)
          * (fitTextToBox (fun s q => q * s.length) ['x'] 100 5 9 9 (7 / 5)).lineHeight ≤ 5) := by
  constructor
  · with_unfolding_all rfl
  · exact of_decide_eq_true (by with_unfolding_all rfl)

lemma fitLoop_some_spec (sw : Str → ℚ → ℚ) (text : Str)
    (maxW maxH baseSize minSize lhr : ℚ) :
    ∀ (fuel : ℕ) (fs : ℚ) (r : FitResult),
      fitLoop sw text maxW maxH baseSize minSize lhr fuel fs = some r →
      minSize ≤ r.fontSize ∧ r.truncated = false ∧ r.remaining = []
      ∧ (r.lines.length : ℚ) * r.lineHeight ≤ maxH := by
  intro fuel
  induction fuel with
  | zero => intro fs r h; simp [fitLoop] at h
  | succ n ih =>
    intro fs r h
    rw [fitLoop] at h
    by_cases hlt : fs < minSize
    · simp [hlt] at h
    · simp only [hlt, if_false] at h
      rcases htr : fitTryRatios
          (wrapText (fun s => sw s fs) maxW text).length fs maxH lhr with _ | lh
      · rw [htr] at h
        exact ih _ r h
      · rw [htr] at h
        obtain rfl : FitResult.mk fs (wrapText (fun s => sw s fs) maxW text) lh false
            (decide (fs < baseSize)) [] = r := by
          injection h
        have hle : ((wrapText (fun s => sw s fs) maxW text).length : ℚ) * lh ≤ maxH := by
          unfold fitTryRatios at htr
          split_ifs at htr with h1 h2
          · obtain rfl : fs * lhr = lh := by injection htr
            exact h1
          · obtain rfl : fs * LINE_HEIGHT_MIN = lh := by injection htr
            exact h2
        exact ⟨not_lt.mp hlt, rfl, rfl, hle⟩

/-- **C1** (amended) — for every width function, text, box, positive
minimum size, base size and ratio: the returned font size is ≥ `min_size`;
when `truncated` is false the wrapped lines satisfy
`line_count * line_height ≤ max(max_height, line_height)` (the fallback
always keeps at least one line, so a single line may exceed a box shorter
than one minimum-size line); and `truncated = true` only with a non-empty
list of withheld remaining lines. -/
theorem fitTextToBox_size_floor_and_fit :
    ∀ (sw : Str → ℚ → ℚ) (text : Str) (maxW maxH baseSize minSize lhr : ℚ),
      0 < minSize →
      minSize ≤ (fitTextToBox sw text maxW maxH baseSize minSize lhr).fontSize
      ∧ ((fitTextToBox sw text maxW maxH baseSize minSize lhr).truncated = false →
          ((fitTextToBox sw text maxW maxH baseSize minSize lhr).lines.length : ℚ)
            * (fitTextToBox sw text maxW maxH baseSize minSize lhr).lineHeight
          ≤ max maxH (fitTextToBox sw text maxW maxH baseSize minSize lhr).lineHeight)
      ∧ ((fitTextToBox sw text maxW maxH baseSize minSize lhr).truncated = true →
          (fitTextToBox sw text maxW maxH baseSize minSize lhr).remaining ≠ []) := by
  intro sw text maxW maxH baseSize minSize lhr hmin
  unfold fitTextToBox
  simp only []
  rcases hfit : fitLoop sw text maxW maxH baseSize minSize lhr
      (⌊2 * (max baseSize minSize - minSize)⌋ + 2).toNat (max baseSize minSize) with _ | r
  · have hlh : (0:ℚ) < minSize * LINE_HEIGHT_MIN := by
      have h15 : (0:ℚ) < LINE_HEIGHT_MIN := by norm_num [LINE_HEIGHT_MIN]
      positivity
    set lines := wrapText (fun s => sw s minSize) maxW text with hlines
    set lineHeight := minSize * LINE_HEIGHT_MIN with hlhdef
    set maxLines := max ⌊maxH / lineHeight⌋ 1 with hmldef
    have hml1 : 1 ≤ maxLines := le_max_right _ _
    by_cases htr : maxLines < (lines.length : ℤ)
    · rw [if_pos (decide_eq_true htr)]
      refine ⟨le_refl _, ?_, ?_⟩
      · intro hcontra
        simp at hcontra
      · intro _ hnil
        rw [List.drop_eq_nil_iff] at hnil
        omega
    · rw [if_neg (by simpa using htr)]
      refine ⟨le_refl _, ?_, ?_⟩
      · intro _
        push_neg at htr
        rcases le_or_lt 1 ⌊maxH / lineHeight⌋ with hfl | hfl
        · have hml : maxLines = ⌊maxH / lineHeight⌋ := max_eq_left hfl
          have hlenle : (lines.length : ℚ) ≤ (⌊maxH / lineHeight⌋ : ℚ) := by
            rw [hml] at htr
            exact_mod_cast htr
          calc (lines.length : ℚ) * lineHeight
              ≤ (⌊maxH / lineHeight⌋ : ℚ) * lineHeight :=
                mul_le_mul_of_nonneg_right hlenle (le_of_lt hlh)
            _ ≤ (maxH / lineHeight) * lineHeight :=
                mul_le_mul_of_nonneg_right (Int.floor_le _) (le_of_lt hlh)
            _ = maxH := div_mul_cancel₀ maxH (ne_of_gt hlh)
            _ ≤ max maxH lineHeight := le_max_left _ _
        · have hml : maxLines = 1 := max_eq_right (le_of_lt hfl)
          have hlen1 : (lines.length : ℚ) ≤ 1 := by
            rw [hml] at htr
            exact_mod_cast htr
          calc (lines.length : ℚ) * lineHeight
              ≤ 1 * lineHeight := mul_le_mul_of_nonneg_right hlen1 (le_of_lt hlh)
            _ = lineHeight := one_mul _
            _ ≤ max maxH lineHeight := le_max_right _ _
      · intro hcontra
        simp at hcontra
  · obtain ⟨h1, h2, h3, h4⟩ :=
      fitLoop_some_spec sw text maxW maxH baseSize minSize lhr _ _ r hfit
    refine ⟨h1, ?_, ?_⟩
    · intro _
      exact le_trans h4 (le_max_left _ _)
    · intro hcontra
      rw [h2] at hcontra
      simp at hcontra

/-- Witness for the amended C1 at the counterexample input: the minimum
size is positive, the returned size meets the floor, and the untruncated
single line satisfies the amended bound. -/
theorem fitTextToBox_size_floor_and_fit_witness :
    (0:ℚ) < 9
    ∧ 9 ≤ (fitTextToBox (fun s q => q * s.length) ['x'] 100 5 9 9 (7 / 5)).fontSize
    ∧ (((fitTextToBox (fun s q => q * s.length) ['x'] 100 5 9 9 (7 / 5)).lines.length : ℚ)
        * (fitTextToBox (fun s q => q * s.length) ['x'] 100 5 9 9 (7 / 5)).lineHeight
        ≤ max 5 (fitTextToBox (fun s q => q * s.length) ['x'] 100 5 9 9 (7 / 5)).lineHeight) := by
  refine ⟨by norm_num, ?_, ?_⟩
  · exact (fitTextToBox_size_floor_and_fit (fun s q => q * s.length) ['x'] 100 5 9 9 (7 / 5)
      (by norm_num)).1
  · exact (fitTextToBox_size_floor_and_fit (fun s q => q * s.length) ['x'] 100 5 9 9 (7 / 5)
      (by norm_num)).2.1 (by with_unfolding_all rfl)

/-! ## `merge_block_page_breaks` (layout_utils.py) -/

/-- One page-boundary step of `merge_block_page_breaks`: given the current
page and the next page, either merge a hyphen-broken word across the
boundary (updating / dropping the boundary blocks) or leave both pages
unchanged.  Mirrors the guard cascade of the Python loop body. -/
def mergeStep (p q : List TextBlock) : List TextBlock × List TextBlock :=
  match p.getLast?, q.head? with
  | some lastB, some firstB =>
    let lastLines := pySplitlines lastB.text
    let nextLines := pySplitlines firstB.text
    match lastNonEmptyIdx lastLines, firstNonEmptyIdx nextLines with
    | some li, some ni =>
      let lastLine := pyRstrip (lastLines.getD li [])
      let nextLine := pyLstrip (nextLines.getD ni [])
      if lastLine.isEmpty || nextLine.isEmpty then (p, q)
      else if !shouldMergeLines lastLine nextLine then (p, q)
      else if lastLine.getLast? == some '-' then
        let ft := splitFirstToken nextLine
        if ft.1.isEmpty then (p, q)
        else
          let newLastText := pyStripNlStr (joinNl (lastLines.set li (mergeLines lastLine ft.1)))
          let newFirstText := pyStripNlStr (joinNl
            (if !ft.2.isEmpty then nextLines.set ni ft.2 else nextLines.eraseIdx ni))
          ((if !newLastText.isEmpty then p.dropLast ++ [{ lastB with text := newLastText }]
            else p.dropLast),
           (if !newFirstText.isEmpty then { firstB with text := newFirstText } :: q.tail
            else q.tail))
      else (p, q)
    | _, _ => (p, q)
  | _, _ => (p, q)

/-- The page loop of `merge_block_page_breaks`: the (possibly updated)
next page of one step becomes the current page of the following step. -/
def mergeAuxC (p : List TextBlock) : List (List TextBlock) → List (List TextBlock)
  | [] => [p]
  | q :: rest =>
    let pr := mergeStep p q
    pr.1 :: mergeAuxC pr.2 rest

/-- `merge_block_page_breaks` (layout_utils.py). -/
def mergeBlockPageBreaks (pages : List (List TextBlock)) : List (List TextBlock) :=
  match pages with
  | [] => []
  | p :: rest => mergeAuxC p rest

/-! ## Claim C4: frame relations and the claim-side merge mechanics -/

/-- How one step may change the *next* page: unchanged, or its first block
text-edited (geometry kept), or its first block dropped. -/
def frontRel (q q' : List TextBlock) : Prop :=
  q' = q ∨ ∃ b t, q = b :: t ∧ (q' = t ∨ ∃ s, q' = { b with text := s } :: t)

/-- How one step may change the *current* page: unchanged, or its last
block text-edited (geometry kept), or its last block dropped. -/
def backRel (p p' : List TextBlock) : Prop :=
  p' = p ∨ ∃ i b, p = i ++ [b] ∧ (p' = i ∨ ∃ s, p' = i ++ [{ b with text := s }])

/-- Across the whole pass a page is touched once as next page (front) and
once as current page (back): text edits confined to the boundary blocks,
all block geometry preserved, blocks only dropped, never created. -/
def pageRel (p p'' : List TextBlock) : Prop :=
  ∃ p', frontRel p p' ∧ backRel p' p''

/-- The claim's firing condition for a page boundary: both pages
non-empty, both boundary blocks have a non-empty line, the stripped
boundary lines pass `should_merge_lines`, the last line ends with a
hyphen, and the next line has a first token. -/
def boundaryFires (p q : List TextBlock) : Bool :=
  match p.getLast?, q.head? with
  | some lastB, some firstB =>
    (match lastNonEmptyIdx (pySplitlines lastB.text),
        firstNonEmptyIdx (pySplitlines firstB.text) with
     | some li, some ni =>
       let lastLine := pyRstrip ((pySplitlines lastB.text).getD li [])
       let nextLine := pyLstrip ((pySplitlines firstB.text).getD ni [])
       !lastLine.isEmpty && !nextLine.isEmpty && shouldMergeLines lastLine nextLine
         && (lastLine.getLast? == some '-') && !(splitFirstToken nextLine).1.isEmpty
     | _, _ => false)
  | _, _ => false

/-- The claim's merge mechanics at a firing boundary: strip the trailing
hyphen from the last non-empty line, append only the first
whitespace-delimited token of the next page's first non-empty line, leave
the remainder of that line in place (deleting the line when no remainder
is left), and drop a boundary block only when its text becomes empty —
geometry is never touched. -/
def claimMergeStep (p q : List TextBlock) : List TextBlock × List TextBlock :=
  match p.getLast?, q.head? with
  | some lastB, some firstB =>
    (match lastNonEmptyIdx (pySplitlines lastB.text),
        firstNonEmptyIdx (pySplitlines firstB.text) with
     | some li, some ni =>
       let lastLines := pySplitlines lastB.text
       let nextLines := pySplitlines firstB.text
       let lastLine := pyRstrip (lastLines.getD li [])
       let nextLine := pyLstrip (nextLines.getD ni [])
       let tok := (splitFirstToken nextLine).1
       let rem := (splitFirstToken nextLine).2
       let newLastText := pyStripNlStr (joinNl (lastLines.set li (lastLine.dropLast ++ tok)))
       let newFirstText := pyStripNlStr (joinNl
         (if rem.isEmpty then nextLines.eraseIdx ni else nextLines.set ni rem))
       ((if newLastText.isEmpty then p.dropLast
         else p.dropLast ++ [{ lastB with text := newLastText }]),
        (if newFirstText.isEmpty then q.tail
         else { firstB with text := newFirstText } :: q.tail))
     | _, _ => (p, q))
  | _, _ => (p, q)

lemma pyLstrip_takeWhile (l : Str) :
    pyLstrip (l.takeWhile (fun c => !c.isWhitespace)) = l.takeWhile (fun c => !c.isWhitespace) := by
  cases l with
  | nil => rfl
  | cons c t =>
    rw [List.takeWhile_cons]
    by_cases hw : c.isWhitespace = true
    · simp [hw]
      rfl
    · simp only [hw, Bool.not_false, if_pos]
      unfold pyLstrip
      rw [List.dropWhile_cons, if_neg (by simp [hw])]

/-- A first token never starts with whitespace, so `lstrip` keeps it. -/
lemma pyLstrip_splitFirstToken_fst (s : Str) :
    pyLstrip (splitFirstToken s).1 = (splitFirstToken s).1 := by
  unfold splitFirstToken
  simp only []
  by_cases h : (pyLstrip s).isEmpty = true
  · rw [if_pos h]
    rfl
  · rw [if_neg h]
    exact pyLstrip_takeWhile (pyLstrip s)

lemma mergeStep_rel (p q : List TextBlock) :
    backRel p (mergeStep p q).1 ∧ frontRel q (mergeStep p q).2 := by
  unfold mergeStep
  rcases hp : p.getLast? with _ | lastB
  · exact ⟨Or.inl rfl, Or.inl rfl⟩
  rcases hq : q.head? with _ | firstB
  · exact ⟨Or.inl rfl, Or.inl rfl⟩
  simp only []
  rcases hli : lastNonEmptyIdx (pySplitlines lastB.text) with _ | li
  · exact ⟨Or.inl rfl, Or.inl rfl⟩
  rcases hni : firstNonEmptyIdx (pySplitlines firstB.text) with _ | ni
  · exact ⟨Or.inl rfl, Or.inl rfl⟩
  simp only []
  have hpdec : p.dropLast ++ [lastB] = p := List.dropLast_append_getLast? lastB hp
  have hqdec : firstB :: q.tail = q := by
    cases q with
    | nil => simp at hq
    | cons a t =>
      obtain rfl : a = firstB := by simpa using hq
      rfl
  have hback : ∀ (c : Prop) (_ : Decidable c) (t : Str),
      backRel p (if c then p.dropLast ++ [{ lastB with text := t }] else p.dropLast) := by
    intro c inst t
    by_cases hc : c
    · rw [if_pos hc]
      exact Or.inr ⟨p.dropLast, lastB, hpdec.symm, Or.inr ⟨t, rfl⟩⟩
    · rw [if_neg hc]
      exact Or.inr ⟨p.dropLast, lastB, hpdec.symm, Or.inl rfl⟩
  have hfront : ∀ (c : Prop) (_ : Decidable c) (t : Str),
      frontRel q (if c then { firstB with text := t } :: q.tail else q.tail) := by
    intro c inst t
    by_cases hc : c
    · rw [if_pos hc]
      exact Or.inr ⟨firstB, q.tail, hqdec.symm, Or.inr ⟨t, rfl⟩⟩
    · rw [if_neg hc]
      exact Or.inr ⟨firstB, q.tail, hqdec.symm, Or.inl rfl⟩
  split_ifs with h1 h2 h3 h4 h5 h6 h7
  · exact ⟨Or.inl rfl, Or.inl rfl⟩
  · exact ⟨Or.inl rfl, Or.inl rfl⟩
  · exact ⟨Or.inl rfl, Or.inl rfl⟩
  all_goals first
    | exact ⟨Or.inl rfl, Or.inl rfl⟩
    | exact ⟨Or.inr ⟨p.dropLast, lastB, hpdec.symm, Or.inr ⟨_, rfl⟩⟩,
        Or.inr ⟨firstB, q.tail, hqdec.symm, Or.inr ⟨_, rfl⟩⟩⟩
    | exact ⟨Or.inr ⟨p.dropLast, lastB, hpdec.symm, Or.inr ⟨_, rfl⟩⟩,
        Or.inr ⟨firstB, q.tail, hqdec.symm, Or.inl rfl⟩⟩
    | exact ⟨Or.inr ⟨p.dropLast, lastB, hpdec.symm, Or.inl rfl⟩,
        Or.inr ⟨firstB, q.tail, hqdec.symm, Or.inr ⟨_, rfl⟩⟩⟩
    | exact ⟨Or.inr ⟨p.dropLast, lastB, hpdec.symm, Or.inl rfl⟩,
        Or.inr ⟨firstB, q.tail, hqdec.symm, Or.inl rfl⟩⟩

lemma mergeAuxC_rel :
    ∀ (rest : List (List TextBlock)) (p0 p : List TextBlock),
      frontRel p0 p → List.Forall₂ pageRel (p0 :: rest) (mergeAuxC p rest) := by
  intro rest
  induction rest with
  | nil =>
    intro p0 p hf
    exact List.Forall₂.cons ⟨p, hf, Or.inl rfl⟩ List.Forall₂.nil
  | cons q rs ih =>
    intro p0 p hf
    exact List.Forall₂.cons ⟨p, hf, (mergeStep_rel p q).1⟩
      (ih q (mergeStep p q).2 (mergeStep_rel p q).2)

lemma mergeStep_eq_claim (p q : List TextBlock) :
    mergeStep p q = if boundaryFires p q then claimMergeStep p q else (p, q) := by
  unfold mergeStep boundaryFires claimMergeStep
  rcases hp : p.getLast? with _ | lastB
  · simp
  rcases hq : q.head? with _ | firstB
  · simp
  simp only []
  rcases hli : lastNonEmptyIdx (pySplitlines lastB.text) with _ | li
  · simp
  rcases hni : firstNonEmptyIdx (pySplitlines firstB.text) with _ | ni
  · simp
  simp only []
  set lastLine := pyRstrip ((pySplitlines lastB.text).getD li []) with hll
  set nextLine := pyLstrip ((pySplitlines firstB.text).getD ni []) with hnl
  by_cases h1 : (lastLine.isEmpty || nextLine.isEmpty) = true
  · have h1' : lastLine = [] ∨ nextLine = [] := by simpa using h1
    have hff : ¬((!lastLine.isEmpty && !nextLine.isEmpty
        && shouldMergeLines lastLine nextLine
        && (lastLine.getLast? == some '-')
        && !(splitFirstToken nextLine).1.isEmpty) = true) := by
      rcases h1' with h | h <;> simp [h]
    rw [if_pos h1, if_neg hff]
  rw [if_neg h1]
  by_cases h2 : (!shouldMergeLines lastLine nextLine) = true
  · have h2' : shouldMergeLines lastLine nextLine = false := by simpa using h2
    have hff : ¬((!lastLine.isEmpty && !nextLine.isEmpty
        && shouldMergeLines lastLine nextLine
        && (lastLine.getLast? == some '-')
        && !(splitFirstToken nextLine).1.isEmpty) = true) := by
      simp [h2']
    rw [if_pos h2, if_neg hff]
  rw [if_neg h2]
  by_cases h3 : (lastLine.getLast? == some '-') = true
  case neg =>
    have h3' : (lastLine.getLast? == some '-') = false := by simpa using h3
    have hff : ¬((!lastLine.isEmpty && !nextLine.isEmpty
        && shouldMergeLines lastLine nextLine
        && (lastLine.getLast? == some '-')
        && !(splitFirstToken nextLine).1.isEmpty) = true) := by
      simp [h3']
    rw [if_neg h3, if_neg hff]
  rw [if_pos h3]
  by_cases h4 : (splitFirstToken nextLine).1.isEmpty = true
  · have h4' : (splitFirstToken nextLine).1 = [] := by simpa using h4
    have hff : ¬((!lastLine.isEmpty && !nextLine.isEmpty
        && shouldMergeLines lastLine nextLine
        && (lastLine.getLast? == some '-')
        && !(splitFirstToken nextLine).1.isEmpty) = true) := by
      simp [h4']
    rw [if_pos h4, if_neg hff]
  · rw [if_neg h4]
    have h1' : ¬(lastLine = [] ∨ nextLine = []) := by
      intro hc
      apply h1
      rcases hc with h | h <;> simp [h]
    push_neg at h1'
    have hft : (!lastLine.isEmpty && !nextLine.isEmpty
        && shouldMergeLines lastLine nextLine
        && (lastLine.getLast? == some '-')
        && !(splitFirstToken nextLine).1.isEmpty) = true := by
      simp only [Bool.and_eq_true, Bool.not_eq_true', List.isEmpty_eq_false,
        Bool.not_eq_true, List.isEmpty_eq_true]
      refine ⟨⟨⟨⟨h1'.1, h1'.2⟩, ?_⟩, h3⟩, ?_⟩
      · simpa using h2
      · simpa using h4
    rw [if_pos hft]
    have htok : mergeLines lastLine (splitFirstToken nextLine).1
        = lastLine.dropLast ++ (splitFirstToken nextLine).1 := by
      unfold mergeLines
      rw [if_pos h3, pyLstrip_splitFirstToken_fst]
    rw [htok]
    simp only [Prod.mk.injEq]
    constructor
    · by_cases hx : (pyStripNlStr (joinNl ((pySplitlines lastB.text).set li
          (lastLine.dropLast ++ (splitFirstToken nextLine).1)))).isEmpty = true
        <;> simp [hx]
    · by_cases h5 : (splitFirstToken nextLine).2.isEmpty = true
      · simp only [h5, Bool.not_true, Bool.false_eq_true, if_false, if_true]
        by_cases hy : (pyStripNlStr (joinNl
            ((pySplitlines firstB.text).eraseIdx ni))).isEmpty = true <;> simp [hy]
      · simp only [h5, Bool.not_false, if_true, Bool.false_eq_true, if_false]
        by_cases hy : (pyStripNlStr (joinNl
            ((pySplitlines firstB.text).set ni (splitFirstToken nextLine).2))).isEmpty = true
          <;> simp [hy]

/-- **C4** — `merge_block_page_breaks` is a frame-respecting hyphen
merger: every output page is its input page with at most the boundary
blocks text-edited (geometry `x0,x1,top,bottom,font_size` preserved) or
dropped (`pageRel`); and each boundary step equals the claim-side
mechanics — it changes nothing unless the last non-empty line ends with a
hyphen and `should_merge_lines` holds, and then it strips the trailing
hyphen, appends only the first whitespace-delimited token of the next
page's first non-empty line, leaves the remainder in place, and drops a
block only when its text becomes empty (`claimMergeStep`). -/
theorem mergeBlockPageBreaks_frame_and_mechanics :
    ∀ pages : List (List TextBlock),
      List.Forall₂ pageRel pages (mergeBlockPageBreaks pages)
      ∧ ∀ p q : List TextBlock,
          mergeStep p q = if boundaryFires p q then claimMergeStep p q else (p, q) := by
  intro pages
  constructor
  · cases pages with
    | nil => exact List.Forall₂.nil
    | cons p rest => exact mergeAuxC_rel rest p p (Or.inl rfl)
  · exact mergeStep_eq_claim

/-! ## `normalize_page_texts` and `_merge_lines_in_text` (pdf_utils.py) -/

/-- The inner `while` of `_merge_lines_in_text`: keep merging following
lines into `current` while the next line is non-blank, `current` is not a
page number, and `should_merge_lines` approves. -/
def mergeRun : Str → List Str → Str × List Str
  | current, [] => (current, [])
  | current, nl :: rs =>
    if (pyStrip nl).isEmpty then (current, nl :: rs)
    else if looksLikePageNumber current then (current, nl :: rs)
    else if !shouldMergeLines current (pyLstrip nl) then (current, nl :: rs)
    else mergeRun (mergeLines current (pyLstrip nl)) rs

lemma mergeRun_rest_length (rs : List Str) :
    ∀ c, (mergeRun c rs).2.length ≤ rs.length := by
  induction rs with
  | nil => intro c; simp [mergeRun]
  | cons nl rest ih =>
    intro c
    unfold mergeRun
    split_ifs
    · exact Nat.le_refl _
    · exact Nat.le_refl _
    · exact Nat.le_refl _
    · exact le_trans (ih _) (Nat.le_succ _)

/-- The outer loop of `_merge_lines_in_text`.  Each step consumes at least
one line, so `fuel = lines.length` (what `mergeLinesInText` passes, cf.
`mergeRun_rest_length`) never runs out and the recursion is exactly the
Python `while i < len(lines)` loop. -/
def mergeLinesAuxF : ℕ → List Str → List Str
  | _, [] => []
  | fuel + 1, l :: rest =>
    if (pyStrip l).isEmpty then [] :: mergeLinesAuxF fuel rest
    else
      let cr := mergeRun (pyRstrip l) rest
      cr.1 :: mergeLinesAuxF fuel cr.2
  | 0, ls => ls

/-- `_merge_lines_in_text` (pdf_utils.py). -/
def mergeLinesInText (text : Str) : Str :=
  let lines := splitNl (dropCr text)
  pyStripNlStr (joinNl (mergeLinesAuxF lines.length lines))

/-- One page-boundary step of `normalize_page_texts`: merge across the
boundary only when the last line of the left page is its last non-empty
line and the first line of the right page is non-empty; hyphen breaks
carry one token, other approved breaks concatenate the whole line. -/
def normStep (pl ql : List Str) : List Str × List Str :=
  match lastNonEmptyIdx pl, firstNonEmptyIdx ql with
  | some li, some ni =>
    if li < pl.length - 1 then (pl, ql)
    else if 0 < ni then (pl, ql)
    else
      let lastLine := pyRstrip (pl.getD li [])
      let nextLine := pyLstrip (ql.getD ni [])
      if (lastLine.isEmpty || nextLine.isEmpty) then (pl, ql)
      else if looksLikePageNumber lastLine then (pl, ql)
      else if !shouldMergeLines lastLine nextLine then (pl, ql)
      else if lastLine.getLast? == some '-' then
        let ft := splitFirstToken nextLine
        if ft.1.isEmpty then (pl, ql)
        else
          (pl.set li (mergeLines lastLine ft.1),
           if !ft.2.isEmpty then ql.set ni ft.2 else ql.eraseIdx ni)
      else (pl.set li (mergeLines lastLine nextLine), ql.eraseIdx ni)
  | _, _ => (pl, ql)

/-- The page loop of `normalize_page_texts` over the per-page line lists. -/
def normAuxC (p : List Str) : List (List Str) → List (List Str)
  | [] => [p]
  | q :: rest =>
    let pr := normStep p q
    pr.1 :: normAuxC pr.2 rest

/-- `normalize_page_texts` (pdf_utils.py). -/
def normalizePageTexts (ts : List Str) : List Str :=
  let pages := ts.map mergeLinesInText
  let lbp := pages.map splitNl
  let merged := match lbp with
    | [] => []
    | p :: rest => normAuxC p rest
  merged.map (fun lines => pyStripNlStr (joinNl lines))

/-! ## Claim C7: idempotence of the cross-boundary mergers -/

/-- The concrete pages refuting idempotence: the token carried across the
boundary itself ends in a hyphen, so a second pass merges again. -/
def c7Pages : List (List TextBlock) :=
  [[⟨"foo-".data, 0, 1, 0, 1, 11⟩], [⟨"bar- baz".data, 0, 1, 0, 1, 11⟩]]

/-- The same shape as page texts for `normalize_page_texts`. -/
def c7Texts : List Str := ["foo-".data, "bar- baz".data]

/-- **C7** (counterexample) — neither merger is idempotent: the first pass
turns `"foo-" / "bar- baz"` into `"foobar-" / "baz"`, and the carried
token `"bar-"` ends in a hyphen, so a second pass merges again (giving
`"foobarbaz"` and an emptied page). -/
theorem crossBoundaryMerger_not_idempotent :
    mergeBlockPageBreaks (mergeBlockPageBreaks c7Pages) ≠ mergeBlockPageBreaks c7Pages
    ∧ normalizePageTexts (normalizePageTexts c7Texts) ≠ normalizePageTexts c7Texts := by
  constructor
  · exact of_decide_eq_true (by with_unfolding_all rfl)
  · exact of_decide_eq_true (by with_unfolding_all rfl)

/-- All page-boundary steps of `merge_block_page_breaks` are no-ops. -/
def mergeStepIdAll : List (List TextBlock) → Bool
  | p :: q :: rest => (mergeStep p q == (p, q)) && mergeStepIdAll (q :: rest)
  | _ => true

/-- All page-boundary steps of `normalize_page_texts` are no-ops. -/
def normStepIdAll : List (List Str) → Bool
  | p :: q :: rest => (normStep p q == (p, q)) && normStepIdAll (q :: rest)
  | _ => true

/-- A fixed-point certificate for `normalize_page_texts`: every page text
is already in `_merge_lines_in_text` normal form and no boundary fires. -/
def normFixed (ts : List Str) : Bool :=
  (ts.map mergeLinesInText == ts) && normStepIdAll (ts.map splitNl)

lemma mergeAuxC_id :
    ∀ (rest : List (List TextBlock)) (p : List TextBlock),
      mergeStepIdAll (p :: rest) = true → mergeAuxC p rest = p :: rest := by
  intro rest
  induction rest with
  | nil => intro p _; rfl
  | cons q rs ih =>
    intro p h
    unfold mergeStepIdAll at h
    rw [Bool.and_eq_true] at h
    have he : mergeStep p q = (p, q) := by
      have := h.1
      rwa [beq_iff_eq] at this
    unfold mergeAuxC
    rw [he]
    show p :: mergeAuxC q rs = p :: q :: rs
    rw [ih q h.2]

lemma normAuxC_id :
    ∀ (rest : List (List Str)) (p : List Str),
      normStepIdAll (p :: rest) = true → normAuxC p rest = p :: rest := by
  intro rest
  induction rest with
  | nil => intro p _; rfl
  | cons q rs ih =>
    intro p h
    unfold normStepIdAll at h
    rw [Bool.and_eq_true] at h
    have he : normStep p q = (p, q) := by
      have := h.1
      rwa [beq_iff_eq] at this
    unfold normAuxC
    rw [he]
    show p :: normAuxC q rs = p :: q :: rs
    rw [ih q h.2]

lemma dropWhile_idem (p : Char → Bool) :
    ∀ l : Str, (l.dropWhile p).dropWhile p = l.dropWhile p := by
  intro l
  induction l with
  | nil => rfl
  | cons c rest ih =>
    rw [List.dropWhile_cons]
    by_cases hc : p c = true
    · rw [if_pos hc]
      exact ih
    · rw [if_neg hc, List.dropWhile_cons, if_neg hc]

lemma head_dropWhile_false (p : Char → Bool) :
    ∀ (l : Str) (a : Char) (t : Str), l.dropWhile p = a :: t → p a = false := by
  intro l
  induction l with
  | nil => intro a t h; simp at h
  | cons c rest ih =>
    intro a t h
    rw [List.dropWhile_cons] at h
    by_cases hc : p c = true
    · rw [if_pos hc] at h
      exact ih a t h
    · rw [if_neg hc] at h
      obtain ⟨rfl, _⟩ : c = a ∧ rest = t := by
        constructor <;> [exact (List.cons.injEq _ _ _ _ ▸ h).1;
          exact (List.cons.injEq _ _ _ _ ▸ h).2]
      exact Bool.not_eq_true _ ▸ hc

lemma pyStripChars_idem (p : Char → Bool) (s : Str) :
    pyStripChars p (pyStripChars p s) = pyStripChars p s := by
  unfold pyStripChars
  set A := s.dropWhile p with hA
  set B := ((A.reverse.dropWhile p).reverse : Str) with hB
  have hBrev : B.reverse = A.reverse.dropWhile p := by
    rw [hB, List.reverse_reverse]
  have hBdrop : B.dropWhile p = B := by
    rcases hBc : B with _ | ⟨b, t⟩
    · rfl
    · have hpb : p b = false := by
        have hpref : B <+: A := by
          apply List.reverse_suffix.mp
          rw [hBrev]
          exact List.dropWhile_suffix p
        rcases hAc : A with _ | ⟨a, t'⟩
        · rw [hAc] at hpref
          rw [hBc] at hpref
          simp at hpref
        · have hhead : b = a := by
            rw [hBc, hAc] at hpref
            obtain ⟨l, hl⟩ := hpref
            exact (by simpa using congrArg (fun x => x.head?) hl.symm : a = b).symm
          subst hhead
          exact head_dropWhile_false p s b t' (hA ▸ hAc)
      rw [List.dropWhile_cons, if_neg (by simp [hpb])]
  rw [hBdrop, hBrev, dropWhile_idem]

lemma joinNl_cons_of_ne (l : Str) {ls : List Str} (h : ls ≠ []) :
    joinNl (l :: ls) = l ++ '\n' :: joinNl ls := by
  cases ls with
  | nil => exact absurd rfl h
  | cons a t => rfl

lemma splitNlAux_ne_nil (s acc : Str) : splitNlAux s acc ≠ [] := by
  induction s generalizing acc with
  | nil => simp [splitNlAux]
  | cons c rest ih =>
    unfold splitNlAux
    by_cases hc : c == '\n'
    · simp only [hc, if_true, if_pos]
      simp
    · simp only [hc, if_false]
      exact ih _

lemma joinNl_splitNlAux (s : Str) :
    ∀ acc : Str, joinNl (splitNlAux s acc) = acc.reverse ++ s := by
  induction s with
  | nil => intro acc; simp [splitNlAux, joinNl]
  | cons c rest ih =>
    intro acc
    unfold splitNlAux
    by_cases hc : (c == '\n') = true
    · rw [if_pos hc]
      rw [joinNl_cons_of_ne _ (splitNlAux_ne_nil rest [])]
      rw [ih []]
      have : c = '\n' := by simpa using hc
      simp [this]
    · rw [if_neg hc]
      rw [ih (c :: acc)]
      simp

lemma joinNl_splitNl (s : Str) : joinNl (splitNl s) = s := by
  unfold splitNl
  rw [joinNl_splitNlAux]
  rfl

lemma map_eq_self_point {α : Type} {f : α → α} :
    ∀ l : List α, l.map f = l → ∀ x ∈ l, f x = x := by
  intro l
  induction l with
  | nil => intro _ x hx; simp at hx
  | cons a t ih =>
    intro h x hx
    rw [List.map_cons] at h
    have h1 : f a = a := (List.cons.injEq _ _ _ _ ▸ h).1
    have h2 : t.map f = t := (List.cons.injEq _ _ _ _ ▸ h).2
    rcases List.mem_cons.mp hx with rfl | hx
    · exact h1
    · exact ih h2 x hx

lemma map_eq_self_of_point {α : Type} {f : α → α} :
    ∀ l : List α, (∀ x ∈ l, f x = x) → l.map f = l := by
  intro l
  induction l with
  | nil => intro _; rfl
  | cons a t ih =>
    intro h
    rw [List.map_cons, h a (List.mem_cons_self a t), ih (fun x hx => h x (List.mem_cons_of_mem a hx))]

/-- **C7** (amended) — both mergers are the identity on fire-free inputs:
`merge_block_page_breaks` returns its input unchanged whenever every
page-boundary step is a no-op, and `normalize_page_texts` returns its
input unchanged whenever every page text is already in
`_merge_lines_in_text` normal form and no boundary step fires.  (Full
idempotence fails: a merged word can itself end in a hyphen and fire
again, cf. the counterexample.) -/
theorem crossBoundaryMerger_fixed_points :
    ∀ (ps : List (List TextBlock)) (ts : List Str),
      (mergeStepIdAll ps = true → mergeBlockPageBreaks ps = ps)
      ∧ (normFixed ts = true → normalizePageTexts ts = ts) := by
  intro ps ts
  constructor
  · intro h
    cases ps with
    | nil => rfl
    | cons p rest => exact mergeAuxC_id rest p h
  · intro h
    unfold normFixed at h
    rw [Bool.and_eq_true] at h
    have hm : ts.map mergeLinesInText = ts := by
      have := h.1
      rwa [beq_iff_eq] at this
    have hn := h.2
    have hpoint : ∀ x ∈ ts, mergeLinesInText x = x := map_eq_self_point ts hm
    unfold normalizePageTexts
    simp only []
    rw [hm]
    have hruns : (match ts.map splitNl with
        | [] => []
        | p :: rest => normAuxC p rest) = ts.map splitNl := by
      rcases hsn : ts.map splitNl with _ | ⟨p, rest⟩
      · rfl
      · rw [hsn] at hn
        exact normAuxC_id rest p hn
    rw [hruns, List.map_map]
    apply map_eq_self_of_point
    intro x hx
    show pyStripNlStr (joinNl (splitNl x)) = x
    rw [joinNl_splitNl]
    have hfix := hpoint x hx
    calc pyStripNlStr x
        = pyStripNlStr (mergeLinesInText x) := by rw [hfix]
      _ = mergeLinesInText x := by
          show pyStripNlStr (mergeLinesInText x) = mergeLinesInText x
          unfold mergeLinesInText pyStripNlStr
          simp only []
          exact pyStripChars_idem _ _
      _ = x := hfix

/-- Two pages whose boundary does not fire (sentence-final punctuation,
uppercase continuation). -/
def c7FixedPages : List (List TextBlock) :=
  [[⟨"End.".data, 0, 1, 0, 1, 11⟩], [⟨"Next".data, 0, 1, 0, 1, 11⟩]]

/-- The same pages as raw page texts. -/
def c7FixedTexts : List Str := ["End.".data, "Next".data]

/-- Witness for the amended C7 at concrete fire-free inputs. -/
theorem crossBoundaryMerger_fixed_points_witness :
    mergeStepIdAll c7FixedPages = true
    ∧ mergeBlockPageBreaks c7FixedPages = c7FixedPages
    ∧ normFixed c7FixedTexts = true
    ∧ normalizePageTexts c7FixedTexts = c7FixedTexts := by
  refine ⟨by with_unfolding_all rfl, ?_, by with_unfolding_all rfl, ?_⟩
  · exact (crossBoundaryMerger_fixed_points c7FixedPages c7FixedTexts).1
      (by with_unfolding_all rfl)
  · exact (crossBoundaryMerger_fixed_points c7FixedPages c7FixedTexts).2
      (by with_unfolding_all rfl)

/-! ## `output_utils.py`: formatting issue report serialization -/

/-- `FormattingIssue` (output_utils.py). -/
structure FormattingIssue where
  page_number : ℤ
  issue_type : Str
  description : Str
  severity : Str
deriving DecidableEq, Repr

/-- `FormattingIssueReport` (output_utils.py).  The summary dict is an
insertion-ordered association list with (by construction) unique keys. -/
structure FormattingIssueReport where
  run_id : Str
  issues : List FormattingIssue
  summary : List (Str × ℤ)
deriving DecidableEq, Repr

/-- Lexicographic byte order on strings (Python's `str` comparison used by
`sort_keys=True`). -/
def strLeB : Str → Str → Bool
  | [], _ => true
  | _ :: _, [] => false
  | a :: s, b :: t => if a < b then true else if b < a then false else strLeB s t

lemma strLeB_total : ∀ s t : Str, strLeB s t = true ∨ strLeB t s = true := by
  intro s
  induction s with
  | nil => intro t; exact Or.inl rfl
  | cons a s ih =>
    intro t
    cases t with
    | nil => exact Or.inr rfl
    | cons b t =>
      rcases lt_trichotomy a b with h | h | h
      · exact Or.inl (by simp [strLeB, h])
      · subst h
        rcases ih t with h' | h'
        · exact Or.inl (by simp [strLeB, lt_irrefl, h'])
        · exact Or.inr (by simp [strLeB, lt_irrefl, h'])
      · exact Or.inr (by simp [strLeB, h])

lemma strLeB_trans : ∀ s t u : Str,
    strLeB s t = true → strLeB t u = true → strLeB s u = true := by
  intro s
  induction s with
  | nil => intro t u _ _; rfl
  | cons a s ih =>
    intro t u hst htu
    cases t with
    | nil => simp [strLeB] at hst
    | cons b t =>
      cases u with
      | nil => simp [strLeB] at htu
      | cons c u =>
        simp only [strLeB] at hst htu ⊢
        rcases lt_trichotomy a b with hab | hab | hab
        · rcases lt_trichotomy b c with hbc | hbc | hbc
          · simp [lt_trans hab hbc]
          · subst hbc; simp [hab]
          · rcases lt_trichotomy a c with hac | hac | hac
            · simp [hac]
            · simp [hbc, not_lt.mpr (le_of_lt hbc)] at htu
            · simp [hbc, not_lt.mpr (le_of_lt hbc)] at htu
        · subst hab
          rcases lt_trichotomy a c with hac | hac | hac
          · simp [hac]
          · subst hac
            simp only [lt_irrefl, if_false] at hst htu ⊢
            exact ih t u hst htu
          · simp [not_lt.mpr (le_of_lt hac), hac] at htu
        · simp [not_lt.mpr (le_of_lt hab), hab] at hst

lemma strLeB_antisymm : ∀ s t : Str,
    strLeB s t = true → strLeB t s = true → s = t := by
  intro s
  induction s with
  | nil =>
    intro t _ hts
    cases t with
    | nil => rfl
    | cons b t => simp [strLeB] at hts
  | cons a s ih =>
    intro t hst hts
    cases t with
    | nil => simp [strLeB] at hst
    | cons b t =>
      simp only [strLeB] at hst hts
      rcases lt_trichotomy a b with h | h | h
      · simp [not_lt.mpr (le_of_lt h), h] at hts
      · subst h
        simp only [lt_irrefl, if_false] at hst hts
        rw [ih t hst hts]
      · simp [not_lt.mpr (le_of_lt h), h] at hst

/-- Summary entries ordered by key (what `sort_keys=True` sorts). -/
def entryLe (a b : Str × ℤ) : Prop := strLeB a.1 b.1 = true

instance : DecidableRel entryLe := fun a b => by
  unfold entryLe; infer_instance

instance : IsTotal (Str × ℤ) entryLe :=
  ⟨fun a b => strLeB_total a.1 b.1⟩

instance : IsTrans (Str × ℤ) entryLe :=
  ⟨fun _ _ _ h1 h2 => strLeB_trans _ _ _ h1 h2⟩

/-- Strict key order on entries (for uniqueness of the sorted list). -/
def entryLt (a b : Str × ℤ) : Prop := entryLe a b ∧ a.1 ≠ b.1

instance : IsAntisymm (Str × ℤ) entryLt :=
  ⟨fun _ _ h1 h2 => absurd (strLeB_antisymm _ _ h1.1 h2.1) h1.2⟩

/-- The summary map with keys sorted, as `json.dump(..., sort_keys=True)`
emits it. -/
def sortedEntries (m : List (Str × ℤ)) : List (Str × ℤ) :=
  List.insertionSort entryLe m

/-- Decimal digits of a natural number. -/
def natToChars (n : ℕ) : Str := Nat.toDigits 10 n

/-- Decimal rendering of an integer. -/
def intToChars (i : ℤ) : Str :=
  if i < 0 then '-' :: natToChars i.natAbs else natToChars i.toNat

/-- A JSON string literal (string escaping is omitted: contents are
compared verbatim, which only strengthens the determinism statement). -/
def quoteStr (s : Str) : Str := '"' :: (s ++ ['"'])

/-- One serialized issue object, keys in sorted order
(`description < issue_type < page_number < severity`), mirroring
`FormattingIssueReport.to_dict` plus `json.dump(..., sort_keys=True)`;
insignificant whitespace (`indent=2`) is omitted. -/
def serializeIssue (i : FormattingIssue) : Str :=
  ['{'] ++ quoteStr "description".data ++ [':'] ++ quoteStr i.description
  ++ [','] ++ quoteStr "issue_type".data ++ [':'] ++ quoteStr i.issue_type
  ++ [','] ++ quoteStr "page_number".data ++ [':'] ++ intToChars i.page_number
  ++ [','] ++ quoteStr "severity".data ++ [':'] ++ quoteStr i.severity
  ++ ['}']

/-- Comma-joined serialization of a list of already-serialized pieces. -/
def commaJoin : List Str → Str
  | [] => []
  | [x] => x
  | x :: y :: rest => x ++ ',' :: commaJoin (y :: rest)

/-- `write_formatting_report` (output_utils.py): the serialized bytes of
`report.to_dict()` under `json.dump(..., sort_keys=True)` — top-level keys
in sorted order `issues < run_id < summary`, summary keys sorted. -/
def writeFormattingReport (r : FormattingIssueReport) : Str :=
  ['{'] ++ quoteStr "issues".data ++ [':', '[']
    ++ commaJoin (r.issues.map serializeIssue) ++ [']']
  ++ [','] ++ quoteStr "run_id".data ++ [':'] ++ quoteStr r.run_id
  ++ [','] ++ quoteStr "summary".data ++ [':', '{']
    ++ commaJoin ((sortedEntries r.summary).map
        (fun e => quoteStr e.1 ++ [':'] ++ intToChars e.2))
    ++ ['}']
  ++ ['}']

lemma sortedEntries_strictSorted {m : List (Str × ℤ)}
    (hn : (m.map Prod.fst).Nodup) : List.Sorted entryLt (sortedEntries m) := by
  have hperm : List.Perm (sortedEntries m) m := List.perm_insertionSort entryLe m
  have hnd' : ((sortedEntries m).map Prod.fst).Nodup :=
    ((hperm.map Prod.fst).nodup_iff).mpr hn
  have hsorted : List.Sorted entryLe (sortedEntries m) :=
    List.sorted_insertionSort entryLe m
  have hpne : List.Pairwise (fun a b : Str × ℤ => a.1 ≠ b.1) (sortedEntries m) :=
    List.pairwise_map.mp hnd'
  exact hsorted.and hpne

lemma sortedEntries_perm_nodup_eq {m1 m2 : List (Str × ℤ)}
    (hp : List.Perm m1 m2) (hn : (m1.map Prod.fst).Nodup) :
    sortedEntries m1 = sortedEntries m2 := by
  have hn2 : (m2.map Prod.fst).Nodup := ((hp.map Prod.fst).nodup_iff).mp hn
  refine List.eq_of_perm_of_sorted ?_ (sortedEntries_strictSorted hn)
    (sortedEntries_strictSorted hn2)
  exact ((List.perm_insertionSort entryLe m1).trans hp).trans
    (List.perm_insertionSort entryLe m2).symm

/-- **C8** — report serialization is deterministic: two reports with the
same `run_id`, the same ordered issue list, and summaries equal as
mappings (same key/count pairs in any insertion order, keys unique)
serialize to identical output — the summary keys are sorted on output. -/
theorem writeFormattingReport_deterministic :
    ∀ r1 r2 : FormattingIssueReport,
      r1.run_id = r2.run_id → r1.issues = r2.issues →
      List.Perm r1.summary r2.summary → (r1.summary.map Prod.fst).Nodup →
      writeFormattingReport r1 = writeFormattingReport r2 := by
  intro r1 r2 hrun hiss hperm hnodup
  unfold writeFormattingReport
  rw [hrun, hiss, sortedEntries_perm_nodup_eq hperm hnodup]

/-- A report whose summary was inserted in one order… -/
def c8Report1 : FormattingIssueReport :=
  ⟨"out".data,
   [⟨1, "truncation".data, "Text truncated to fit layout block.".data, "high".data⟩],
   [("truncation".data, 2), ("font_scaled_down".data, 1)]⟩

/-- …and the same report with the summary inserted in the other order. -/
def c8Report2 : FormattingIssueReport :=
  ⟨"out".data,
   [⟨1, "truncation".data, "Text truncated to fit layout block.".data, "high".data⟩],
   [("font_scaled_down".data, 1), ("truncation".data, 2)]⟩

/-- Witness for C8: the two concrete reports satisfy the hypotheses and
serialize identically. -/
theorem writeFormattingReport_deterministic_witness :
    List.Perm c8Report1.summary c8Report2.summary
    ∧ (c8Report1.summary.map Prod.fst).Nodup
    ∧ writeFormattingReport c8Report1 = writeFormattingReport c8Report2 := by
  refine ⟨by decide, by decide, ?_⟩
  exact writeFormattingReport_deterministic c8Report1 c8Report2 rfl rfl
    (by decide) (by decide)

/-! ## Claim C5: the word clusterer partitions and sorts -/

lemma minQ_append_singleton (l : List ℚ) (x : ℚ) (h : l ≠ []) :
    minQ (l ++ [x]) = min (minQ l) x := by
  match l with
  | y :: ys =>
    show (ys ++ [x]).foldl min y = min (ys.foldl min y) x
    rw [List.foldl_append]
    rfl

lemma clusterWords_ne_nil (tol : ℚ) :
    ∀ (rest cur : List Word) (ctop : ℚ), clusterWords tol rest cur ctop ≠ [] := by
  intro rest
  induction rest with
  | nil => intro cur ctop; simp [clusterWords]
  | cons w rs ih =>
    intro cur ctop
    unfold clusterWords
    by_cases h : |w.top - ctop| ≤ tol
    · rw [if_pos h]
      exact ih _ _
    · rw [if_neg h]
      simp

lemma clusterWords_spec (tol : ℚ) (htol : 0 ≤ tol) :
    ∀ (rest cur : List Word) (ctop : ℚ),
      List.Pairwise (keyLe Word.top Word.x0) (cur ++ rest) →
      cur ≠ [] → ctop = minQ (cur.map Word.top) →
      (clusterWords tol rest cur ctop).flatten = cur ++ rest
      ∧ (∀ g ∈ clusterWords tol rest cur ctop, g ≠ [])
      ∧ List.Chain' (fun g g' => minQ (g.map Word.top) < minQ (g'.map Word.top))
          (clusterWords tol rest cur ctop)
      ∧ minQ (((clusterWords tol rest cur ctop).headD []).map Word.top) = ctop := by
  intro rest
  induction rest with
  | nil =>
    intro cur ctop _ hcur hctop
    refine ⟨by simp [clusterWords], ?_, ?_, ?_⟩
    · intro g hg
      simp [clusterWords] at hg
      exact hg ▸ hcur
    · simp [clusterWords]
    · simp [clusterWords, hctop]
  | cons w rs ih =>
    intro cur ctop hpw hcur hctop
    have hcross : ∀ a ∈ cur, keyLe Word.top Word.x0 a w := by
      intro a ha
      exact (List.pairwise_append.mp hpw).2.2 a ha w (List.mem_cons_self w rs)
    have hctop_le : ctop ≤ w.top := by
      have hmapne : cur.map Word.top ≠ [] := by
        intro hcontra
        exact hcur (List.map_eq_nil_iff.mp hcontra)
      obtain ⟨c0, hc0mem, hc0top⟩ := List.mem_map.mp (minQ_mem hmapne)
      rcases hcross c0 hc0mem with h | ⟨h, _⟩
      · rw [hctop, ← hc0top]
        exact le_of_lt h
      · rw [hctop, ← hc0top, h]
    unfold clusterWords
    by_cases hjoin : |w.top - ctop| ≤ tol
    · rw [if_pos hjoin]
      have hpw' : List.Pairwise (keyLe Word.top Word.x0) ((cur ++ [w]) ++ rs) := by
        rw [List.append_assoc]
        exact hpw
      have hnew : min ctop w.top = minQ ((cur ++ [w]).map Word.top) := by
        have hm : (cur ++ [w]).map Word.top = cur.map Word.top ++ [w.top] := by simp
        rw [hm, minQ_append_singleton _ _ (by
          intro hcontra
          exact hcur (List.map_eq_nil_iff.mp hcontra)), hctop]
      obtain ⟨h1, h2, h3, h4⟩ := ih (cur ++ [w]) (min ctop w.top) hpw'
        (by simp) hnew
      refine ⟨?_, h2, h3, ?_⟩
      · rw [h1, List.append_assoc]
        rfl
      · rw [h4]
        exact min_eq_left hctop_le
    · rw [if_neg hjoin]
      have hlt : ctop < w.top := by
        rcases lt_or_eq_of_le hctop_le with h | h
        · exact h
        · exfalso
          apply hjoin
          rw [← h, sub_self, abs_zero]
          exact htol
      have hpw' : List.Pairwise (keyLe Word.top Word.x0) ([w] ++ rs) := by
        exact hpw.sublist (List.sublist_append_right cur (w :: rs))
      obtain ⟨h1, h2, h3, h4⟩ := ih [w] w.top hpw' (by simp) (by rfl)
      refine ⟨?_, ?_, ?_, ?_⟩
      · show cur ++ (clusterWords tol rs [w] w.top).flatten = cur ++ w :: rs
        rw [h1]
        rfl
      · intro g hg
        rcases List.mem_cons.mp hg with rfl | hg
        · exact hcur
        · exact h2 g hg
      · rw [List.chain'_cons']
        refine ⟨?_, h3⟩
        intro y hy
        have hyh : y = (clusterWords tol rs [w] w.top).headD [] := by
          rcases hrec : clusterWords tol rs [w] w.top with _ | ⟨g0, gs⟩
          · exact absurd hrec (clusterWords_ne_nil tol rs [w] w.top)
          · rw [hrec] at hy
            simp at hy
            simp [hy]
        rw [hyh, h4, ← hctop]
        exact hlt
      · simpa using hctop.symm

lemma buildLine_bbox (g : List Word) :
    (buildLine g).x0 = minQ (g.map Word.x0)
    ∧ (buildLine g).x1 = maxQ (g.map Word.x1)
    ∧ (buildLine g).top = minQ (g.map Word.top)
    ∧ (buildLine g).bottom = maxQ (g.map Word.bottom) := by
  have hperm : List.Perm (List.insertionSort (projLe Word.x0) g) g :=
    List.perm_insertionSort _ _
  unfold buildLine
  exact ⟨minQ_perm (hperm.map Word.x0), maxQ_perm (hperm.map Word.x1),
    minQ_perm (hperm.map Word.top), maxQ_perm (hperm.map Word.bottom)⟩

/-- **C5** — with the default tolerance 2.0, the word clusterer's output
lines are sorted by (top, x0); the input words are partitioned among the
output lines (a permutation of the input splits into the non-empty word
groups, and each line is built from its group); and every line's bounding
box is the union (min/max) over its words. -/
theorem wordsToLines_sorted_partition :
    ∀ ws : List Word,
      List.Pairwise (keyLe TextLine.top TextLine.x0) (wordsToLines ws 2)
      ∧ (∃ gs : List (List Word),
          (∀ g ∈ gs, g ≠ [])
          ∧ List.Perm ws gs.flatten
          ∧ wordsToLines ws 2 = gs.map buildLine)
      ∧ (∀ g : List Word,
          (buildLine g).x0 = minQ (g.map Word.x0)
          ∧ (buildLine g).x1 = maxQ (g.map Word.x1)
          ∧ (buildLine g).top = minQ (g.map Word.top)
          ∧ (buildLine g).bottom = maxQ (g.map Word.bottom)) := by
  intro ws
  have hperm : List.Perm (List.insertionSort (keyLe Word.top Word.x0) ws) ws :=
    List.perm_insertionSort _ _
  have hsorted : List.Pairwise (keyLe Word.top Word.x0)
      (List.insertionSort (keyLe Word.top Word.x0) ws) :=
    List.sorted_insertionSort _ _
  unfold wordsToLines
  rcases hs : List.insertionSort (keyLe Word.top Word.x0) ws with _ | ⟨w, rest⟩
  · refine ⟨List.Pairwise.nil, ⟨[], by simp, ?_, rfl⟩, fun g => buildLine_bbox g⟩
    have : ws = [] := by
      have := hperm
      rw [hs] at this
      exact (this.nil_eq).symm
    simp [this]
  · rw [hs] at hsorted hperm
    obtain ⟨h1, h2, h3, h4⟩ := clusterWords_spec 2 (by norm_num) rest [w] w.top
      (by simpa using hsorted) (by simp) (by rfl)
    refine ⟨?_, ⟨clusterWords 2 rest [w] w.top, h2, ?_, rfl⟩, fun g => buildLine_bbox g⟩
    · have hchain : List.Chain' (fun a b : TextLine => a.top < b.top)
          ((clusterWords 2 rest [w] w.top).map buildLine) := by
        rw [List.chain'_map]
        apply h3.imp
        intro g g' hgg
        rw [(buildLine_bbox g).2.2.1, (buildLine_bbox g').2.2.1]
        exact hgg
      haveI : IsTrans TextLine (fun a b : TextLine => a.top < b.top) :=
        ⟨fun _ _ _ h h' => lt_trans h h'⟩
      have hpairwise : List.Pairwise (fun a b : TextLine => a.top < b.top)
          ((clusterWords 2 rest [w] w.top).map buildLine) :=
        List.chain'_iff_pairwise.mp hchain
      exact hpairwise.imp (fun h => Or.inl h)
    · exact hperm.symm.trans (by rw [h1]; exact List.Perm.refl _)
